import Mathlib

/-!
Verification development for the Classic-McEliece key-generation core
(packages `kem/mceliece/mceliece348864` and `kem/mceliece/mceliece6960119`).

The Go source is shallowly embedded:
* byte buffers are modelled as total functions `Nat → Nat` (`Buf`) holding byte
  values, with region writes (`writeList`) and region reads (`readList`);
* machine integers are `Nat` with explicit wrap-around (`% 2^32`, `% 2^64`)
  exactly where the source relies on fixed-width arithmetic;
* fallible functions return `Option`; the unbounded retry loop of
  `deriveKeyPair` takes an explicit fuel argument;
* external collaborators that are not part of the sampled source
  (the SHAKE256 expansion, the control-bits encoder, and for the 6960119
  variant the bitsliced vector arithmetic `fft`/`vecMul`/`vecInv`) are taken
  as function parameters, which makes them deterministic by construction, as
  the spec's collaborator contracts demand;
* the sorting collaborator and the GF(2^12) arithmetic package
  (`math/gf4096`), which belong to the repository but are outside the sampled
  source, are modelled from the spec (each such definition is marked
  `Modelled from the spec:`).
-/

set_option linter.unusedVariables false
set_option maxRecDepth 1024

namespace McEliece

/-- Byte buffers are total functions from index to byte value. -/
abbrev Buf := Nat → Nat

/-- Bit matrices / byte matrices indexed by (row, column or byte index). -/
abbrev Mat2 := Nat → Nat → Nat

/-- The all-zero buffer (Go's zero-initialised fixed-size arrays). -/
def zeroBuf : Buf := fun _ => 0

/-- Write the byte list `d` into buffer `b` at offset `off` (Go `copy`). -/
def writeList (b : Buf) (off : Nat) (d : List Nat) : Buf :=
  fun i => if off ≤ i ∧ i < off + d.length then d.getD (i - off) 0 else b i

/-- Read `len` bytes from buffer `b` starting at offset `off`. -/
def readList (b : Buf) (off len : Nat) : List Nat :=
  (List.range len).map (fun i => b (off + i))

/-- Extract the `len` bytes at offset `off` of a byte list. -/
def subBytes (l : List Nat) (off len : Nat) : List Nat :=
  (List.range len).map (fun i => l.getD (off + i) 0)

/-- Pointwise update of a matrix entry. -/
def updMat (m : Mat2) (r c v : Nat) : Mat2 :=
  fun r1 c1 => if r1 = r ∧ c1 = c then v else m r1 c1

/-- Modelled from the spec: the sort collaborator takes an array of 64-bit
integers and returns them in ascending numeric order. -/
def uInt64Sort (l : List Nat) : List Nat :=
  l.mergeSort (fun a b => decide (a ≤ b))

/-- store8 serialises a 64-bit value as 8 little-endian bytes
(transcribed from `store8` in mceliece.go; the `byte` conversions are the
`&&& 0xFF` masks). -/
def store8 (x : Nat) : List Nat :=
  [(x >>> 0x00) &&& 0xFF, (x >>> 0x08) &&& 0xFF,
   (x >>> 0x10) &&& 0xFF, (x >>> 0x18) &&& 0xFF,
   (x >>> 0x20) &&& 0xFF, (x >>> 0x28) &&& 0xFF,
   (x >>> 0x30) &&& 0xFF, (x >>> 0x38) &&& 0xFF]

end McEliece

namespace McEliece348864

open McEliece

/-! Parameter constants, transcribed from the `const` block of
`kem/mceliece/mceliece348864/mceliece.go`.  `gfBits`/`gfMask` come from the
external `math/gf4096` package (m = 12 in this variant, per the spec). -/

def sysT : Nat := 64
def gfBits : Nat := 12
def gfMask : Nat := 4095
def unusedBits : Nat := 16 - gfBits
def sysN : Nat := 3488
def condBytes : Nat := (1 <<< (gfBits - 4)) * (2 * gfBits - 1)
def irrBytes : Nat := sysT * 2
def pkNRows : Nat := sysT * gfBits
def pkNCols : Nat := sysN - pkNRows
def pkRowBytes : Nat := (pkNCols + 7) / 8
def PublicKeySize : Nat := 261120
def PrivateKeySize : Nat := 6492
def seedSize : Nat := 32

/-- Modelled from the spec: GF(2^12) multiplication from the external
`math/gf4096` collaborator package (not part of the sampled source).
Carry-less shift-and-mask accumulation of the operands followed by reduction
of the high bits modulo the field's fixed irreducible modulus
(x^12 + x^3 + 1, i.e. 0x1009 = 4105), with the top bits masked off. -/
def gfMul (a b : Nat) : Nat :=
  let t := (List.range 12).foldl
    (fun acc i => acc ^^^ (if b.testBit i then a <<< i else 0)) 0
  ((List.range 12).foldl
    (fun acc k =>
      let i := 23 - k
      if acc.testBit i then acc ^^^ (4105 <<< (i - 12)) else acc)
    t) &&& gfMask

/-- Modelled from the spec: GF(2^12) inversion from the external `math/gf4096`
collaborator package, `inverse(a) = a^(2^12 - 2)` by square-and-multiply
(most-significant bit of the exponent 4094 first). -/
def gfInv (a : Nat) : Nat :=
  (List.range 12).foldl
    (fun acc k =>
      let sq := gfMul acc acc
      if (4094).testBit (11 - k) then gfMul sq a else sq)
    1

/-- isZeroMask, transcribed from mceliece.go lines 110-114: the uint32
subtraction wraps modulo 2^32 and the final conversion to uint16 (the `gf`
type) reduces modulo 2^16. -/
def isZeroMask (element : Nat) : Nat :=
  (((element + (4294967296 - 1)) % 4294967296) >>> 19) % 65536

/-- bitRev, transcribed from mceliece.go lines 375-382 (all intermediate
values stay below 2^16, so no uint16 wrap-around occurs). -/
def bitRev (a : Nat) : Nat :=
  let a1 := ((a &&& 0x00FF) <<< 8) ||| ((a &&& 0xFF00) >>> 8)
  let a2 := ((a1 &&& 0x0F0F) <<< 4) ||| ((a1 &&& 0xF0F0) >>> 4)
  let a3 := ((a2 &&& 0x3333) <<< 2) ||| ((a2 &&& 0xCCCC) >>> 2)
  let a4 := ((a3 &&& 0x5555) <<< 1) ||| ((a3 &&& 0xAAAA) >>> 1)
  a4 >>> unusedBits

/-- loadGf, transcribed from mceliece.go: load two little-endian bytes at
offset `off` and mask to 12 bits. -/
def loadGf (src : List Nat) (off : Nat) : Nat :=
  ((src.getD (off + 1) 0) <<< 8 ||| src.getD off 0) &&& gfMask

/-- storeGf, transcribed from mceliece.go: two little-endian bytes. -/
def storeGf (a : Nat) : List Nat := [a &&& 0xFF, (a >>> 8) &&& 0xFF]

/-- load4, transcribed from mceliece.go: four little-endian bytes at `off`. -/
def load4 (src : List Nat) (off : Nat) : Nat :=
  src.getD (off + 3) 0 <<< 24 ||| src.getD (off + 2) 0 <<< 16 |||
  src.getD (off + 1) 0 <<< 8 ||| src.getD off 0

/-- polyMul, transcribed from mceliece.go lines 169-187: full convolution of
the two degree-(t-1) inputs into a buffer of length 2t-1, then fold the
high-degree terms down with the field's structural reduction steps
(indices i-t+3, i-t+1, i-t, the last scaled by the constant 2). -/
def polyMul (a b : List Nat) : List Nat :=
  let product := List.replicate (sysT * 2 - 1) 0
  let product := (List.range sysT).foldl (fun p i =>
      (List.range sysT).foldl (fun p2 j =>
        p2.set (i + j) (p2.getD (i + j) 0 ^^^ gfMul (a.getD i 0) (b.getD j 0))) p)
    product
  let product := (List.range (sysT - 1)).foldl (fun p k =>
      let i := (sysT - 1) * 2 - k
      let p := p.set (i - sysT + 3) (p.getD (i - sysT + 3) 0 ^^^ p.getD i 0)
      let p := p.set (i - sysT + 1) (p.getD (i - sysT + 1) 0 ^^^ p.getD i 0)
      p.set (i - sysT) (p.getD (i - sysT) 0 ^^^ gfMul (p.getD i 0) 2))
    product
  (List.range sysT).map (fun i => product.getD i 0)

/-- Matrix entry access (rows are lists of field elements). -/
def getM (m : List (List Nat)) (r c : Nat) : Nat := (m.getD r []).getD c 0

/-- Matrix entry update. -/
def setM (m : List (List Nat)) (r c v : Nat) : List (List Nat) :=
  m.set r ((m.getD r []).set c v)

/-- The (t+1) × t matrix built at the start of minimalPolynomial
(mceliece.go lines 118-130): row 0 is [1,0,...,0], row 1 is f, and each
further row is the previous row multiplied by f. -/
def minimalPolynomialRows (f : List Nat) : List (List Nat) :=
  let row0 := 1 :: List.replicate (sysT - 1) 0
  let row1 := (List.range sysT).map (fun i => f.getD i 0)
  (List.range (sysT - 1)).foldl
    (fun rows _ => rows ++ [polyMul (rows.getD (rows.length - 1) []) f])
    [row0, row1]

/-- The pivot-repair pass for column j (mceliece.go lines 133-140): for each
later column k > j, XOR-merge rows j..t of column k into column j under the
mask derived from the zero test of the current pivot. -/
def mergeStep (mat : List (List Nat)) (j : Nat) : List (List Nat) :=
  (List.range (sysT - (j + 1))).foldl (fun m kk =>
    let k := j + 1 + kk
    let mask := isZeroMask (getM m j j)
    (List.range (sysT + 1 - j)).foldl (fun m2 cc =>
      let c := j + cc
      setM m2 c j (getM m2 c j ^^^ (getM m2 c k &&& mask))) m) mat

/-- One column of the Gauss-Jordan elimination in minimalPolynomial
(mceliece.go lines 132-159): pivot repair, zero-pivot failure check,
normalisation of column j by the pivot's inverse, and elimination of every
other column. -/
def colStep (mat : List (List Nat)) (j : Nat) : Option (List (List Nat)) :=
  let m1 := mergeStep mat j
  if getM m1 j j = 0 then none
  else
    let inv := gfInv (getM m1 j j)
    let m2 := (List.range (sysT + 1)).foldl
      (fun m c => setM m c j (gfMul (getM m c j) inv)) m1
    let m3 := (List.range sysT).foldl (fun m k =>
      if k ≠ j then
        let t := getM m j k
        (List.range (sysT + 1)).foldl
          (fun m2 c => setM m2 c k (getM m2 c k ^^^ gfMul (getM m2 c j) t)) m
      else m) m2
    some m3

/-- Run `colStep` over the given list of columns, stopping at the first
zero pivot. -/
def elimCols : List (List Nat) → List Nat → Option (List (List Nat))
  | mat, [] => some mat
  | mat, j :: rest =>
    match colStep mat j with
    | none => none
    | some m => elimCols m rest

/-- minimalPolynomial, transcribed from mceliece.go lines 117-166: build the
matrix, eliminate columns 0..t-1, and on success return the last row. -/
def minimalPolynomial (f : List Nat) : Option (List Nat) :=
  (elimCols (minimalPolynomialRows f) (List.range sysT)).map
    (fun m => (List.range sysT).map (fun i => getM m sysT i))

/-- eval, transcribed from mceliece.go lines 306-313: Horner evaluation of the
monic degree-t polynomial f at a (gf4096.Add is XOR). -/
def eval (f : List Nat) (a : Nat) : Nat :=
  (List.range sysT).foldl
    (fun r k => gfMul r a ^^^ f.getD (sysT - 1 - k) 0)
    (f.getD sysT 0)

/-- root, transcribed from mceliece.go lines 315-319. -/
def root (f l : List Nat) : List Nat :=
  (List.range sysN).map (fun i => eval f (l.getD i 0))

/-- The matrix-filling loops of pkGen (mceliece.go lines 232-258): for each
polynomial-coefficient index i, pack bit k of the current inverse vector,
eight columns to a byte, into row i*gfBits+k, then multiply the inverse
vector pointwise by L. -/
def fillMat (inv0 L : List Nat) : Mat2 :=
  ((List.range sysT).foldl
    (fun (st : Mat2 × List Nat) i =>
      let mat := (List.range (sysN / 8)).foldl (fun mt jb =>
          (List.range gfBits).foldl (fun mt2 k =>
            let b := (List.range 8).foldl
              (fun bb tt =>
                (bb <<< 1) ||| ((st.2.getD (8 * jb + (7 - tt)) 0 >>> k) &&& 1))
              0
            updMat mt2 (i * gfBits + k) jb b) mt)
        st.1
      (mat, (List.range sysN).map (fun j => gfMul (st.2.getD j 0) (L.getD j 0))))
    ((fun _ _ => 0), inv0)).1

/-- One row of the Gaussian elimination of pkGen (mceliece.go lines 261-297):
for i = row/8 and j = row%8, branchlessly absorb lower rows into `row` (byte
mask `-((mat[row][i] ^ mat[k][i]) >> j & 1)` wraps to 0 or 255), fail if the
pivot bit is still clear, then branchlessly clear the pivot column in every
other row. -/
def gaussRowStep (m : Mat2) (row : Nat) : Option Mat2 :=
  let i := row / 8
  let j := row % 8
  let m1 := (List.range (pkNRows - (row + 1))).foldl (fun mm kk =>
      let k := row + 1 + kk
      let mask := ((mm row i ^^^ mm k i) >>> j) &&& 1
      let maskB := (256 - mask) % 256
      (List.range (sysN / 8)).foldl
        (fun mm2 c => updMat mm2 row c (mm2 row c ^^^ (mm2 k c &&& maskB))) mm)
    m
  if ((m1 row i) >>> j) &&& 1 = 0 then none
  else some ((List.range pkNRows).foldl (fun mm k =>
      if k ≠ row then
        let mask := ((mm k i) >>> j) &&& 1
        let maskB := (256 - mask) % 256
        (List.range (sysN / 8)).foldl
          (fun mm2 c => updMat mm2 k c (mm2 k c ^^^ (mm2 row c &&& maskB))) mm
      else mm) m1)

/-- The full Gaussian elimination of pkGen (nested i/j loops of mceliece.go
lines 261-297; the `row >= pkNRows` break is kept as a guard, though with
pkNRows = 768 divisible by 8 it never fires). -/
def gaussElim (m : Mat2) : Option Mat2 :=
  (List.range ((pkNRows + 7) / 8)).foldl (fun acc i =>
    (List.range 8).foldl (fun acc2 j =>
      match acc2 with
      | none => none
      | some mm =>
        if pkNRows ≤ i * 8 + j then some mm else gaussRowStep mm (i * 8 + j))
      acc)
    (some m)

/-- The public-key serialisation of pkGen (mceliece.go lines 299-301): row i
of the output is bytes pkNRows/8 .. pkNRows/8 + pkRowBytes of matrix row i. -/
def serializePk (m : Mat2) : List Nat :=
  (List.range pkNRows).flatMap
    (fun i => (List.range pkRowBytes).map (fun c => m i (pkNRows / 8 + c)))

/-- pkGen, transcribed from mceliece.go lines 190-304.  The `pivots` argument
is received by value and never used, exactly as in the source
(`nolint:unparam`).  Output: the permutation `pi` (written through a pointer
in Go) and the serialised public key. -/
def pkGen (sk : List Nat) (perm : List Nat) (pivots : Nat) :
    Option (List Nat × List Nat) :=
  let g := ((List.range sysT).map (fun i => loadGf sk (2 * i))) ++ [1]
  let buf := (List.range (1 <<< gfBits)).map
    (fun i => ((perm.getD i 0) <<< 31) ||| i)
  let sorted := uInt64Sort buf
  if (List.range ((1 <<< gfBits) - 1)).all
      (fun i => decide (sorted.getD i 0 >>> 31 ≠ sorted.getD (i + 1) 0 >>> 31))
  then
    let pi := sorted.map (fun x => x &&& gfMask)
    let L := (List.range sysN).map (fun i => bitRev (pi.getD i 0))
    let inv0 := (List.range sysN).map (fun i => gfInv ((root g L).getD i 0))
    match gaussElim (fillMat inv0 L) with
    | none => none
    | some mf => some (pi, serializePk mf)
  else none

/-! The key-pair driver (deriveKeyPair, mceliece.go lines 41-107). -/

def irrPolys : Nat := sysN / 8 + (1 <<< gfBits) * 4
def seedIndex : Nat := sysN / 8 + (1 <<< gfBits) * 4 + sysT * 2
def permIndex : Nat := sysN / 8
def sBase : Nat := 32 + 8 + irrBytes + condBytes
def rLen : Nat := sysN / 8 + (1 <<< gfBits) * 4 + sysT * 2 + 32
def pivotsInit : Nat := 0xFFFFFFFF

/-- The SHAKE256 expansion collaborator: given a requested output length and
the 33-byte seed buffer, produce the output stream.  Deterministic by
construction (it is a function), per the spec's collaborator contract. -/
abbrev Xof := Nat → List Nat → List Nat

/-- The control-bits encoder collaborator
(`mceliece.ControlBitsFromPermutation`): maps the permutation `pi` to its
condBytes-byte encoding. -/
abbrev CtrlBits := List Nat → List Nat

/-- The initial 33-byte seed buffer: domain-separation tag 64 followed by the
first 32 entropy bytes (`seed := [33]byte{64}; copy(seed[1:], entropy)`). -/
def seedInit (entropy : List Nat) : List Nat :=
  64 :: (List.range 32).map (fun i => entropy.getD i 0)

/-- The next iteration's seed buffer: tag 64 followed by the last 32 bytes of
the current expansion (`copy(seed[1:], r[len(r)-32:])`). -/
def nextSeed (xof : Xof) (s : List Nat) : List Nat :=
  64 :: (List.range 32).map (fun i => (xof rLen s).getD (rLen - 32 + i) 0)

/-- The candidate-polynomial field elements read from the expansion buffer
(`f[i] = loadGf(r[irrPolys + 2i:])`). -/
def fOf (xof : Xof) (s : List Nat) : List Nat :=
  (List.range sysT).map (fun i => loadGf (xof rLen s) (irrPolys + 2 * i))

/-- The permutation words read from the expansion buffer
(`perm[i] = load4(r[permIndex + 4i:])`). -/
def permOf (xof : Xof) (s : List Nat) : List Nat :=
  (List.range (1 <<< gfBits)).map
    (fun i => load4 (xof rLen s) (permIndex + 4 * i))

/-- The 2t-byte little-endian serialisation of the irreducible polynomial
written into sk[40:40+irrBytes] (`storeGf` per coefficient). -/
def serializeIrr (irr : List Nat) : List Nat :=
  (List.range sysT).flatMap (fun i => storeGf (irr.getD i 0))

/-- The seed bytes recorded into sk[0:32] at the start of an iteration
(`copy(sk[:32], seed[1:])`). -/
def seedRecord (s : List Nat) : List Nat :=
  (List.range 32).map (fun i => s.getD (1 + i) 0)

/-- The control-bits bytes written into sk[32+8+irrBytes:], normalised to
exactly condBytes bytes (the encoder collaborator fills that region). -/
def ctrlRecord (ctrl : CtrlBits) (pi : List Nat) : List Nat :=
  (List.range condBytes).map (fun i => (ctrl pi).getD i 0)

/-- The secret random string copied into sk[sBase:]
(`copy(sk[sBase:sBase+sysN/8], r[0:sysN/8])`). -/
def sRecord (xof : Xof) (s : List Nat) : List Nat :=
  (List.range (sysN / 8)).map (fun i => (xof rLen s).getD i 0)

/-- The body of one iteration of the retry loop of deriveKeyPair
(mceliece.go lines 66-105): on a rejection it hands the partially written
private-key buffer to the next iteration (`Sum.inl`), and on success it
returns the key pair (`Sum.inr`). -/
def loopStep (xof : Xof) (ctrl : CtrlBits) (skC : Buf) (s : List Nat) :
    Sum Buf (List Nat × List Nat) :=
  let sk1 := writeList skC 0 (seedRecord s)
  (minimalPolynomial (fOf xof s)).elim (Sum.inl sk1) (fun irr =>
    let sk2 := writeList sk1 40 (serializeIrr irr)
    (pkGen (readList sk2 40 irrBytes) (permOf xof s) pivotsInit).elim
      (Sum.inl sk2) (fun pr =>
        let sk3 := writeList sk2 (32 + 8 + irrBytes) (ctrlRecord ctrl pr.1)
        let sk4 := writeList sk3 sBase (sRecord xof s)
        let sk5 := writeList sk4 32 (store8 pivotsInit)
        Sum.inr (pr.2, readList sk5 0 PrivateKeySize)))

/-- The retry loop of deriveKeyPair (mceliece.go lines 65-106), with explicit
fuel and the private-key buffer `skC` carried across iterations exactly as in
the source (the Go `sk` array lives outside the loop, so bytes written by a
failed attempt persist into the next iteration). -/
def keyGenLoop (xof : Xof) (ctrl : CtrlBits) (fuel : Nat) :
    Buf → List Nat → Option (List Nat × List Nat) :=
  Nat.rec (motive := fun _ => Buf → List Nat → Option (List Nat × List Nat))
    (fun _ _ => none)
    (fun _ ih skC s =>
      (loopStep xof ctrl skC s).elim
        (fun skNext => ih skNext (nextSeed xof s))
        (fun r => some r))
    fuel

/-- deriveKeyPair (mceliece.go lines 41-107): start the retry loop on the
zero-initialised key buffers with the tagged entropy seed. -/
def deriveKeyPair (xof : Xof) (ctrl : CtrlBits) (fuel : Nat)
    (entropy : List Nat) : Option (List Nat × List Nat) :=
  keyGenLoop xof ctrl fuel zeroBuf (seedInit entropy)

/-- The private-key bytes assembled by a successful attempt seeded by `s`
(the write stack of the success branch of the loop, over fresh buffers):
seed at 0, irreducible polynomial at 40, control bits at 32+8+irrBytes,
secret random string at sBase, and finally the pivot mask at 32. -/
def skAssembled (xof : Xof) (ctrl : CtrlBits) (s irr pi : List Nat) :
    List Nat :=
  readList (writeList (writeList (writeList (writeList (writeList zeroBuf 0
    (seedRecord s)) 40 (serializeIrr irr)) (32 + 8 + irrBytes)
    (ctrlRecord ctrl pi)) sBase (sRecord xof s)) 32 (store8 pivotsInit))
    0 PrivateKeySize

/-- The result of a single attempt seeded by `s`, computed on fresh (zero)
buffers: the returned (pk, sk) pair when the attempt succeeds.  (The
irreducible-polynomial bytes handed to pkGen are the freshly written
sk[40:40+irrBytes] region, which equals `serializeIrr irr`.) -/
def attemptResult (xof : Xof) (ctrl : CtrlBits) (s : List Nat) :
    Option (List Nat × List Nat) :=
  (minimalPolynomial (fOf xof s)).elim none (fun irr =>
    (pkGen (serializeIrr irr) (permOf xof s) pivotsInit).elim none
      (fun pr => some (pr.2, skAssembled xof ctrl s irr pr.1)))

/-- Iterate the seed-update `n` times from seed buffer `s`. -/
def iterSeed (xof : Xof) : Nat → List Nat → List Nat
  | 0, s => s
  | n + 1, s => iterSeed xof n (nextSeed xof s)

/-- The 33-byte seed buffer of attempt `n` for initial entropy `e`. -/
def seedAt (xof : Xof) (n : Nat) (e : List Nat) : List Nat :=
  iterSeed xof n (seedInit e)

/-- The 32-byte seed value of attempt `n` (the seed buffer without its
domain-separation tag). -/
def seedBodyAt (xof : Xof) (n : Nat) (e : List Nat) : List Nat :=
  List.drop 1 (seedAt xof n e)

/-- The scheme-level DeriveKeyPair (mceliece.go lines 444-449); the Go panic
on a wrong-length seed is modelled as `Except.error`. -/
def DeriveKeyPair (xof : Xof) (ctrl : CtrlBits) (fuel : Nat)
    (seed : List Nat) : Except String (Option (List Nat × List Nat)) :=
  if seed.length ≠ seedSize then
    Except.error "seed must be of length EncapsulationSeedSize"
  else Except.ok (deriveKeyPair xof ctrl fuel seed)

/-- MarshalBinary on private keys (mceliece.go lines 402-406): copy the
stored bytes into a fresh PrivateKeySize buffer. -/
def MarshalBinaryPrivateKey (sk : List Nat) : List Nat :=
  (List.range PrivateKeySize).map (fun i => sk.getD i 0)

/-- UnmarshalBinaryPrivateKey (mceliece.go lines 472-479): reject a
wrong-length buffer; otherwise copy the bytes into a local array `sk` and
return `&PrivateKey{}` — the zero value, with the local copy discarded. -/
def UnmarshalBinaryPrivateKey (buf : List Nat) : Option (List Nat) :=
  if buf.length ≠ PrivateKeySize then none
  else
    let sk := (List.range PrivateKeySize).map (fun i => buf.getD i 0)
    some (List.replicate PrivateKeySize 0)

/-- A concrete (trivial) expansion collaborator, used only to instantiate
universally quantified theorems at closed inputs. -/
def xofZero : Xof := fun n _ => List.replicate n 0

/-- A concrete (trivial) control-bits collaborator, used only to instantiate
universally quantified theorems at closed inputs. -/
def ctrlZero : CtrlBits := fun _ => List.replicate condBytes 0

end McEliece348864

namespace McEliece6960119

open McEliece

/-! Parameters of the mceliece6960119 variant.  Its own `const` block lives
outside the sampled source; the values follow the Classic-McEliece 6960119
parameter set named by the package (m = 13, t = 119, n = 6960), and the
derived constants are transcribed from the `const` block of pk_gen.go. -/

def gfBits : Nat := 13
def sysT : Nat := 119
def sysN : Nat := 6960
def gfMask : Nat := 8191
def pkNRows : Nat := sysT * gfBits
def pkNCols : Nat := sysN - pkNRows
def pkRowBytes : Nat := (pkNCols + 7) / 8
def nblocksH : Nat := (sysN + 63) / 64
def nblocksI : Nat := (pkNRows + 63) / 64
def blockIdx : Nat := nblocksI - 1
def tail : Nat := pkNRows % 64

/-- storeI, transcribed from pk_gen.go lines 9-13: the low `i` bytes of a
64-bit value, little-endian. -/
def storeI (x i : Nat) : List Nat :=
  (List.range i).map (fun j => (x >>> (j * 8)) &&& 0xFF)

/-- Modelled from the spec: the 2-byte little-endian field-element load used
by irrLoad (this variant's `loadGf` lives outside the sampled source), masked
to m = 13 bits. -/
def loadGf (src : List Nat) (off : Nat) : Nat :=
  ((src.getD (off + 1) 0) <<< 8 ||| src.getD off 0) &&& gfMask

/-- A bitsliced vector: gfBits words of 64 bits. -/
abbrev Vec := List Nat

/-- The external bitsliced field multiplication collaborator. -/
abbrev VecMul := Vec → Vec → Vec

/-- The external bitsliced field inversion collaborator. -/
abbrev VecInv := Vec → Vec

/-- The external FFT-evaluation collaborator. -/
abbrev Fft := List Vec → List Vec

/-- irrLoad, transcribed from pk_gen.go lines 48-74: bit-slice the monic
degree-t polynomial (t coefficients plus the implicit leading 1) into
2 × gfBits words of 64 bits. -/
def irrLoad (inp : List Nat) : List Vec :=
  let irr := (List.range sysT).map (fun i => loadGf inp (i * 2)) ++ [1]
  let v0 := fun i => (List.range 64).foldl
    (fun v jj => (v <<< 1) ||| ((irr.getD (63 - jj) 0 >>> i) &&& 1)) 0
  let v1 := fun i => (List.range (sysT + 1 - 64)).foldl
    (fun v jj => (v <<< 1) ||| ((irr.getD (sysT - jj) 0 >>> i) &&& 1)) 0
  [(List.range gfBits).map v0, (List.range gfBits).map v1]

/-- The forward product chain (pk_gen.go lines 105-108):
prod[0] = eval[0] and prod[i] = vecMul(prod[i-1], eval[i]). -/
def prodChain (vMul : VecMul) (evalv : Nat → Vec) : Nat → Vec
  | 0 => evalv 0
  | i + 1 => vMul (prodChain vMul evalv i) (evalv (i + 1))

/-- The running value of `tmp` in the batch-inversion loop (pk_gen.go lines
109-113): tmpAt 0 = vecInv(prod[127]), and each loop iteration multiplies by
the next eval value downwards. -/
def tmpAt (vMul : VecMul) (vInv : VecInv) (evalv : Nat → Vec) : Nat → Vec
  | 0 => vInv (prodChain vMul evalv 127)
  | k + 1 => vMul (tmpAt vMul vInv evalv k) (evalv (127 - k))

/-- The inverted products after the batch-inversion loop (pk_gen.go lines
105-114): in the downward loop, iteration i overwrites prod[i+1] with
vecMul(prod[i], tmp) before tmp is advanced (so it uses tmpAt (126 - i)),
and prod[0] receives the final tmp (tmpAt 127). -/
def prodFinal (vMul : VecMul) (vInv : VecInv) (evalv : Nat → Vec) (i : Nat) :
    Vec :=
  if i = 0 then tmpAt vMul vInv evalv 127
  else vMul (prodChain vMul evalv (i - 1)) (tmpAt vMul vInv evalv (126 - (i - 1)))

/-- deBitSlicing, transcribed from pk_gen.go lines 15-28: recover the 13-bit
field element at global index `idx` from the bitsliced representation
(word bits accumulated from j = gfBits-1 down to 0). -/
def deBitSlice (prodv : Nat → Vec) (idx : Nat) : Nat :=
  (List.range gfBits).foldl
    (fun acc jj =>
      (acc <<< 1) |||
        (((prodv (idx / 64)).getD (gfBits - 1 - jj) 0 >>> (idx % 64)) &&& 1))
    0

/-- toBitslicing2x out1 (the re-bitsliced inverted products), transcribed from
pk_gen.go lines 31-37: bit r of word j of block i is bit (j + gfBits) of
list[i*64+r]. -/
def reslicedProd (sorted : List Nat) (i j : Nat) : Nat :=
  (List.range 64).foldl
    (fun acc rr =>
      (acc <<< 1) ||| ((sorted.getD (i * 64 + (63 - rr)) 0 >>> (j + gfBits)) &&& 1))
    0

/-- toBitslicing2x out0 (the consts), transcribed from pk_gen.go lines 39-45:
bit r of word j of block i is bit (gfBits - 1 - j) of list[i*64+r]. -/
def reslicedConsts (sorted : List Nat) (i j : Nat) : Nat :=
  (List.range 64).foldl
    (fun acc rr =>
      (acc <<< 1) |||
        ((sorted.getD (i * 64 + (63 - rr)) 0 >>> (gfBits - 1 - j)) &&& 1))
    0

/-- The per-block evolution of prod during the two matrix-fill loops
(pk_gen.go lines 136-149 and 213-226): block j starts at the re-bitsliced
inverted product and is multiplied by consts[j] once per coefficient row. -/
def prodPow (vMul : VecMul) (sorted : List Nat) : Nat → Nat → Vec
  | 0, j => (List.range gfBits).map (fun k => reslicedProd sorted j k)
  | i + 1, j =>
    vMul (prodPow vMul sorted i j)
      ((List.range gfBits).map (fun k => reslicedConsts sorted j k))

/-- The parity-check matrix before elimination (pk_gen.go lines 136-149 and
213-226): row i*gfBits+k, block j holds word k of prodPow i j. -/
def origMat (vMul : VecMul) (sorted : List Nat) : Mat2 :=
  fun r c => (prodPow vMul sorted (r / gfBits) c).getD (r % gfBits) 0

/-- The initial ops matrix (pk_gen.go lines 153-161): the identity, one bit
per row. -/
def opsInit : Mat2 := fun r c => if c = r / 64 then 1 <<< (r % 64) else 0

/-- One row of the elimination with operation tracking (pk_gen.go lines
168-197): while the pivot bit is clear, absorb lower rows (the uint64 mask
`bit - 1` wraps to all-ones exactly when the bit is 0); fail if the pivot bit
is still clear; then clear the pivot bit in all lower rows (mask `-bit`). -/
def gaussStep2 (st : Mat2 × Mat2) (row : Nat) : Option (Mat2 × Mat2) :=
  let i := row >>> 6
  let j := row &&& 63
  let st1 := (List.range (pkNRows - (row + 1))).foldl
    (fun (p : Mat2 × Mat2) kk =>
      let k := row + 1 + kk
      let mask := ((p.1 row i) >>> j) &&& 1
      let mask := (mask + 18446744073709551616 - 1) % 18446744073709551616
      (List.range nblocksI).foldl
        (fun (mm : Mat2 × Mat2) c =>
          (updMat mm.1 row c (mm.1 row c ^^^ (mm.1 k c &&& mask)),
           updMat mm.2 row c (mm.2 row c ^^^ (mm.2 k c &&& mask)))) p)
    st
  if ((st1.1 row i) >>> j) &&& 1 = 0 then none
  else some ((List.range (pkNRows - (row + 1))).foldl
    (fun (p : Mat2 × Mat2) kk =>
      let k := row + 1 + kk
      let mask := ((p.1 k i) >>> j) &&& 1
      let mask := (18446744073709551616 - mask) % 18446744073709551616
      (List.range nblocksI).foldl
        (fun (mm : Mat2 × Mat2) c =>
          (updMat mm.1 k c (mm.1 k c ^^^ (mm.1 row c &&& mask)),
           updMat mm.2 k c (mm.2 k c ^^^ (mm.2 row c &&& mask)))) p)
    st1)

/-- The elimination over all rows (pk_gen.go lines 168-197), starting from
the freshly filled matrix and the identity ops. -/
def gaussAll (vMul : VecMul) (sorted : List Nat) : Option (Mat2 × Mat2) :=
  (List.range pkNRows).foldl
    (fun acc row => acc.bind (fun st => gaussStep2 st row))
    (some (origMat vMul sorted, opsInit))

/-- The back-substitution pass on ops (pk_gen.go lines 200-210), reading the
upper-triangular eliminated matrix st.1 and updating ops only. -/
def backSubst (st : Mat2 × Mat2) : Mat2 :=
  (List.range pkNRows).foldl
    (fun ops rr =>
      let row := pkNRows - 1 - rr
      (List.range row).foldl
        (fun ops2 k =>
          let mask := ((st.1 k (row / 64)) >>> (row % 64)) &&& 1
          let mask := (18446744073709551616 - mask) % 18446744073709551616
          (List.range nblocksI).foldl
            (fun oo c => updMat oo k c (oo k c ^^^ (oo row c &&& mask))) ops2)
        ops)
    st.2

/-- The matrix as read by the serialisation phase (pk_gen.go lines 212-230):
blocks ≥ nblocksI are refilled from the prod chain, block blockIdx is
restored from the saved pre-elimination column, and the remaining (lower)
blocks keep the eliminated values, which the serialisation never reads. -/
def matSerial (vMul : VecMul) (sorted : List Nat) (elimM : Mat2) : Mat2 :=
  fun c k =>
    if k = blockIdx then origMat vMul sorted c blockIdx
    else if nblocksI ≤ k then origMat vMul sorted c k
    else elimM c k

/-- One 64-bit word of the recombined public-key row (pk_gen.go lines
238-246): XOR together the matrix rows selected by the bits of ops[row]. -/
def oneRowWord (matS : Mat2) (ops : Mat2) (row k : Nat) : Nat :=
  (List.range pkNRows).foldl
    (fun acc c =>
      let mask := ((ops row (c / 64)) >>> (c % 64)) &&& 1
      let mask := (18446744073709551616 - mask) % 18446744073709551616
      acc ^^^ (matS c k &&& mask))
    0

/-- The serialised bytes of one public-key row (pk_gen.go lines 248-263):
nblocksH-1-blockIdx full 8-byte words, each combining adjacent row words
shifted by `tail` (the in-place update reads the next word before it is
shifted, so the functional form uses the original words), followed by the
pkRowBytes%8 low bytes of the shifted last word, with the bits beyond
pkNCols masked off the final byte. -/
def rowBytes (w : Nat → Nat) : List Nat :=
  ((List.range (nblocksH - 1 - blockIdx)).flatMap (fun t =>
      store8 (((w (blockIdx + t) >>> tail) |||
               (w (blockIdx + t + 1) <<< (64 - tail))) % 18446744073709551616)))
  ++ (let bytes := storeI (w (nblocksH - 1) >>> tail) (pkRowBytes % 8)
      (List.range (pkRowBytes % 8)).map (fun j =>
        if j = pkRowBytes % 8 - 1 then
          bytes.getD j 0 &&& ((1 <<< (pkNCols % 8)) - 1)
        else bytes.getD j 0))

/-- The 64-bit sort keys of pkGen (pk_gen.go lines 102-122): the de-bitsliced
inverted products shifted by gfBits, combined with the index, and tagged with
the permutation word shifted by 31. -/
def sortKeys (fft : Fft) (vMul : VecMul) (vInv : VecInv)
    (irr : List Nat) (perm : List Nat) : List Nat :=
  (List.range (1 <<< gfBits)).map (fun i =>
    (((deBitSlice (prodFinal vMul vInv
        (fun j => (fft (irrLoad irr)).getD j [])) i) <<< gfBits) ||| i) |||
      ((perm.getD i 0) <<< 31))

/-- pkGen of the 6960119 variant, transcribed from pk_gen.go lines 83-266 and
parametrised over the external bitsliced collaborators fft/vecMul/vecInv.
The `pivots` argument is never written by the sampled source
(`nolint:unparam`).  Output: the permutation `pi` and the serialised
public key. -/
def pkGen (fft : Fft) (vMul : VecMul) (vInv : VecInv)
    (irr : List Nat) (perm : List Nat) (pivots : Nat) :
    Option (List Nat × List Nat) :=
  let sorted := uInt64Sort (sortKeys fft vMul vInv irr perm)
  if (List.range ((1 <<< gfBits) - 1)).all
      (fun i => decide (sorted.getD i 0 >>> 31 ≠ sorted.getD (i + 1) 0 >>> 31))
  then
    match gaussAll vMul sorted with
    | none => none
    | some st =>
      some (sorted.map (fun x => x &&& gfMask),
        (List.range pkNRows).flatMap (fun row =>
          rowBytes (fun k =>
            oneRowWord (matSerial vMul sorted st.1) (backSubst st) row k)))
  else none

end McEliece6960119

/-! General lemmas about the buffer and list helpers. -/

namespace McEliece

theorem length_store8 (x : Nat) : (store8 x).length = 8 := rfl

theorem uInt64Sort_perm (l : List Nat) : (uInt64Sort l).Perm l :=
  List.mergeSort_perm l _

theorem getD_map_range (f : Nat → Nat) (n i : Nat) :
    ((List.range n).map f).getD i 0 = if i < n then f i else 0 := by
  by_cases h : i < n
  · rw [if_pos h, List.getD_eq_getElem _ _ (by simpa using h)]
    simp
  · rw [if_neg h, List.getD_eq_default]
    simpa using Nat.le_of_not_lt h

theorem map_range_getD (l : List Nat) (n : Nat) (h : l.length = n) :
    (List.range n).map (fun i => l.getD i 0) = l := by
  apply List.ext_getElem (by simpa using h.symm)
  intro i h1 h2
  simp only [List.getElem_map, List.getElem_range]
  rw [List.getD_eq_getElem _ _ (by omega)]

theorem length_readList (b : Buf) (off len : Nat) :
    (readList b off len).length = len := by
  simp [readList]

theorem writeList_apply_inside (b : Buf) (off : Nat) (d : List Nat) (i : Nat)
    (h1 : off ≤ i) (h2 : i < off + d.length) :
    writeList b off d i = d.getD (i - off) 0 := by
  simp [writeList, h1, h2]

theorem writeList_apply_outside (b : Buf) (off : Nat) (d : List Nat) (i : Nat)
    (h : i < off ∨ off + d.length ≤ i) :
    writeList b off d i = b i := by
  have h2 : ¬ (off ≤ i ∧ i < off + d.length) := by omega
  simp [writeList, h2]

theorem readList_writeList (b : Buf) (off len : Nat) (d : List Nat)
    (h : d.length = len) :
    readList (writeList b off d) off len = d := by
  apply List.ext_getElem (by simp [length_readList, h])
  intro i h1 h2
  simp only [readList, List.getElem_map, List.getElem_range]
  rw [writeList_apply_inside b off d _ (by omega) (by omega)]
  rw [List.getD_eq_getElem _ _ (by omega)]
  congr 1
  omega

theorem readList_writeList_disjoint (b : Buf) (off len off1 : Nat)
    (d : List Nat) (h : off + len ≤ off1 ∨ off1 + d.length ≤ off) :
    readList (writeList b off1 d) off len = readList b off len := by
  unfold readList
  apply List.map_congr_left
  intro i hi
  have hi' : i < len := by simpa using hi
  exact writeList_apply_outside b off1 d _ (by omega)

theorem subBytes_readList (b : Buf) (off len n : Nat) (h : off + len ≤ n) :
    subBytes (readList b 0 n) off len = readList b off len := by
  unfold subBytes readList
  apply List.map_congr_left
  intro i hi
  have hi' : i < len := by simpa using hi
  rw [getD_map_range]
  simp [show off + i < n by omega]

/-- Indexing into the concatenation of equal-length chunks. -/
theorem getD_flatten_chunks (c : Nat) (ls : List (List Nat))
    (hlen : ∀ l ∈ ls, l.length = c) (r j : Nat)
    (hr : r < ls.length) (hj : j < c) :
    ls.flatten.getD (r * c + j) 0 = (ls.getD r []).getD j 0 := by
  induction ls generalizing r with
  | nil => simp at hr
  | cons hd tl ih =>
    have hhd : hd.length = c := hlen hd (by simp)
    cases r with
    | zero =>
      simp only [List.flatten_cons, Nat.zero_mul, Nat.zero_add]
      rw [List.getD_eq_getElem _ _ (by simp [hhd]; omega)]
      rw [List.getElem_append_left (by omega)]
      simp only [List.getD_cons_zero]
      rw [List.getD_eq_getElem _ _ (by omega)]
    | succ r' =>
      simp only [List.flatten_cons, List.getD_cons_succ]
      have harith : (r' + 1) * c + j = hd.length + (r' * c + j) := by
        rw [hhd]; ring
      rw [show ((r' + 1) * c + j) = hd.length + (r' * c + j) from harith]
      rw [List.getD_eq_getElem?_getD, List.getElem?_append_right (by omega)]
      have h2 : hd.length + (r' * c + j) - hd.length = r' * c + j := by omega
      rw [h2, ← List.getD_eq_getElem?_getD]
      exact ih (fun l hl => hlen l (by simp [hl])) r' (by simpa using hr)

theorem shiftLeft_and_mask_zero (a s m : Nat) (h : m ≤ s) :
    (a <<< s) &&& (2 ^ m - 1) = 0 := by
  rw [Nat.and_pow_two_sub_one_eq_mod, Nat.shiftLeft_eq]
  have h2 : 2 ^ s = 2 ^ m * 2 ^ (s - m) := by
    rw [← pow_add]
    congr 1
    omega
  rw [h2, ← Nat.mul_assoc, Nat.mul_comm a (2 ^ m), Nat.mul_assoc]
  exact Nat.mul_mod_right _ _

theorem count_range_eq (v n : Nat) :
    (List.range n).count v = if v < n then 1 else 0 := by
  by_cases h : v < n
  · rw [if_pos h]
    exact List.count_eq_one_of_mem (List.nodup_range n) (List.mem_range.mpr h)
  · rw [if_neg h]
    exact List.count_eq_zero.mpr (fun hmem => h (List.mem_range.mp hmem))

/-- Counting after sorting and masking the keys: when each key's masked value
recovers its index, the multiset of masked sorted keys is exactly 0..n-1. -/
theorem count_sorted_masked (kf : Nat → Nat) (msk n : Nat)
    (hk : ∀ i, i < n → kf i &&& msk = i) (v : Nat) :
    ((uInt64Sort ((List.range n).map kf)).map (fun x => x &&& msk)).count v =
      if v < n then 1 else 0 := by
  have hperm := (uInt64Sort_perm ((List.range n).map kf)).map
    (fun x => x &&& msk)
  rw [hperm.count_eq]
  rw [List.map_map]
  have hcong : (List.range n).map ((fun x => x &&& msk) ∘ kf) =
      (List.range n).map id := by
    apply List.map_congr_left
    intro i hi
    exact hk i (List.mem_range.mp hi)
  rw [hcong, List.map_id]
  exact count_range_eq v n

end McEliece

namespace McEliece348864

open McEliece

theorem condBytes_eq : condBytes = 5888 := rfl
theorem irrBytes_eq : irrBytes = 128 := rfl
theorem pkNRows_eq : pkNRows = 768 := rfl
theorem pkNCols_eq : pkNCols = 2720 := rfl
theorem pkRowBytes_eq : pkRowBytes = 340 := rfl
theorem sBase_eq : sBase = 6056 := rfl

theorem isZeroMask_zero : isZeroMask 0 = 8191 := by decide

theorem isZeroMask_ne_zero (a : Nat) (h0 : a ≠ 0) (h1 : a < 524289) :
    isZeroMask a = 0 := by
  unfold isZeroMask
  have h2 : a + (4294967296 - 1) = (a - 1) + 4294967296 := by omega
  rw [h2, Nat.add_mod_right, Nat.mod_eq_of_lt (by omega)]
  rw [Nat.shiftRight_eq_div_pow]
  rw [Nat.div_eq_of_lt (by norm_num; omega)]

/-- The masked merge of the pivot-repair step is exactly a conditional XOR:
it adds the other column when the pivot is zero and does nothing otherwise
(for gf-sized operands). -/
theorem isZeroMask_conditional (x y p : Nat) (hy : y < 4096) (hp : p < 4096) :
    x ^^^ (y &&& isZeroMask p) = if p = 0 then x ^^^ y else x := by
  by_cases h : p = 0
  · subst h
    rw [if_pos rfl, isZeroMask_zero]
    have h8191 : (8191 : Nat) = 2 ^ 13 - 1 := by norm_num
    rw [h8191, Nat.and_pow_two_sub_one_eq_mod, Nat.mod_eq_of_lt (by omega)]
  · rw [if_neg h, isZeroMask_ne_zero p h (by omega)]
    simp

theorem colStep_eq_none_iff (mat : List (List Nat)) (j : Nat) :
    colStep mat j = none ↔ getM (mergeStep mat j) j j = 0 := by
  by_cases h : getM (mergeStep mat j) j j = 0
  · simp [colStep, h]
  · simp [colStep, h]

theorem elimCols_nil (mat : List (List Nat)) : elimCols mat [] = some mat := rfl

theorem elimCols_cons (mat : List (List Nat)) (j : Nat) (rest : List Nat) :
    elimCols mat (j :: rest) =
      match colStep mat j with
      | none => none
      | some m => elimCols m rest := rfl

/-- The column elimination fails exactly when, at some processed column, the
pivot is still zero after the masked repair pass. -/
theorem elimCols_eq_none_iff (cols : List Nat) :
    ∀ mat, elimCols mat cols = none ↔
      ∃ i, i < cols.length ∧ ∃ m,
        elimCols mat (cols.take i) = some m ∧
        getM (mergeStep m (cols.getD i 0)) (cols.getD i 0) (cols.getD i 0) = 0 := by
  induction cols with
  | nil =>
    intro mat
    simp [elimCols_nil]
  | cons j rest ih =>
    intro mat
    cases hcs : colStep mat j with
    | none =>
      have hpiv : getM (mergeStep mat j) j j = 0 :=
        (colStep_eq_none_iff mat j).mp hcs
      constructor
      · intro _
        exact ⟨0, by simp, mat, by simp [elimCols_nil], by simpa using hpiv⟩
      · intro _
        rw [elimCols_cons, hcs]
    | some m =>
      have hpiv : ¬ getM (mergeStep mat j) j j = 0 := by
        intro h0
        rw [(colStep_eq_none_iff mat j).mpr h0] at hcs
        cases hcs
      have hstep : elimCols mat (j :: rest) = elimCols m rest := by
        rw [elimCols_cons, hcs]
      rw [hstep, ih m]
      constructor
      · rintro ⟨i, hi, m2, hm2, hz⟩
        refine ⟨i + 1, by simpa using Nat.succ_lt_succ hi, m2, ?_, by simpa using hz⟩
        rw [List.take_succ_cons, elimCols_cons, hcs]
        exact hm2
      · rintro ⟨i, hi, m2, hm2, hz⟩
        cases i with
        | zero =>
          rw [List.take_zero, elimCols_nil] at hm2
          cases hm2
          exact absurd (by simpa using hz) hpiv
        | succ i2 =>
          have hi2 : i2 < rest.length := by
            simp only [List.length_cons] at hi
            omega
          refine ⟨i2, hi2, m2, ?_, by simpa using hz⟩
          rw [List.take_succ_cons, elimCols_cons, hcs] at hm2
          exact hm2

/-- C5: in minimalPolynomial, for each column j the pivot-repair pass
XOR-merges later columns k > j into column j under the branchless
isZeroMask-derived mask, which acts exactly as a conditional on the pivot
being zero; the function returns failure if and only if some processed
column's pivot is still zero after this repair; and on success the output
polynomial is the last matrix row, row t. -/
theorem claim_C5_minimal_polynomial_contract (f : List Nat) :
    (∀ x y p : Nat, y < 4096 → p < 4096 →
      x ^^^ (y &&& isZeroMask p) = if p = 0 then x ^^^ y else x) ∧
    (minimalPolynomial f = none ↔
      ∃ j, j < sysT ∧ ∃ m,
        elimCols (minimalPolynomialRows f) (List.range j) = some m ∧
        getM (mergeStep m j) j j = 0) ∧
    (match minimalPolynomial f with
     | some out => ∃ m,
         elimCols (minimalPolynomialRows f) (List.range sysT) = some m ∧
         out = (List.range sysT).map (fun i => getM m sysT i)
     | none => True) := by
  refine ⟨isZeroMask_conditional, ?_, ?_⟩
  · have h := elimCols_eq_none_iff (List.range sysT) (minimalPolynomialRows f)
    have hlen : (List.range sysT).length = sysT := List.length_range sysT
    constructor
    · intro hnone
      have hn : elimCols (minimalPolynomialRows f) (List.range sysT) = none := by
        unfold minimalPolynomial at hnone
        exact Option.map_eq_none'.mp hnone
      obtain ⟨i, hi, m, hm, hz⟩ := h.mp hn
      have hi' : i < sysT := by omega
      have hgd : (List.range sysT).getD i 0 = i := by
        rw [List.getD_eq_getElem _ _ (by simpa using hi')]
        simp
      refine ⟨i, hi', m, ?_, ?_⟩
      · rw [List.take_range] at hm
        have hmin : min i sysT = i := by omega
        rwa [hmin] at hm
      · rwa [hgd] at hz
    · rintro ⟨j, hj, m, hm, hz⟩
      have hn : elimCols (minimalPolynomialRows f) (List.range sysT) = none := by
        apply h.mpr
        have hgd : (List.range sysT).getD j 0 = j := by
          rw [List.getD_eq_getElem _ _ (by simpa using hj)]
          simp
        refine ⟨j, by omega, m, ?_, by rwa [hgd]⟩
        rw [List.take_range]
        have hmin : min j sysT = j := by omega
        rwa [hmin]
      unfold minimalPolynomial
      rw [hn]
      rfl
  · cases hmp : minimalPolynomial f with
    | none => trivial
    | some out =>
      have hex : ∃ m,
          elimCols (minimalPolynomialRows f) (List.range sysT) = some m ∧
          out = (List.range sysT).map (fun i => getM m sysT i) := by
        unfold minimalPolynomial at hmp
        cases hel : elimCols (minimalPolynomialRows f) (List.range sysT) with
        | none =>
          rw [hel, Option.map_none'] at hmp
          exact absurd hmp (by simp)
        | some m =>
          rw [hel, Option.map_some'] at hmp
          exact ⟨m, rfl, (Option.some.inj hmp).symm⟩
      exact hex

/-- Witness for C5: the masked merge conjunct evaluated at concrete operands
(pivot 0 merges, pivot 3 leaves the column unchanged). -/
theorem claim_C5_witness :
    (10 ^^^ (7 &&& isZeroMask 0) = 10 ^^^ 7) ∧
    (10 ^^^ (7 &&& isZeroMask 3) = 10) := by
  constructor
  · have h := (claim_C5_minimal_polynomial_contract []).1 10 7 0
      (by norm_num) (by norm_num)
    simpa using h
  · have h := (claim_C5_minimal_polynomial_contract []).1 10 7 3
      (by norm_num) (by norm_num)
    simpa using h

/-- C6 fails as stated: at the zero input, isZeroMask returns 0x1FFF
(8191), not the all-ones value of the uint16 return type (0xFFFF). -/
theorem claim_C6_counterexample : isZeroMask 0 ≠ 65535 := by decide

/-- C6 (amended): for every field element a (any uint16 input), isZeroMask
returns 0x1FFF — all-ones on the low 13 bits, which covers every bit of a
gf value since gf values occupy 12 bits — if a = 0, and all-zero
otherwise. -/
theorem claim_C6_isZeroMask (a : Nat) (ha : a < 65536) :
    isZeroMask a = if a = 0 then 8191 else 0 := by
  by_cases h : a = 0
  · subst h
    rw [if_pos rfl]
    exact isZeroMask_zero
  · rw [if_neg h]
    exact isZeroMask_ne_zero a h (by omega)

/-- Witness for C6 (amended) at the concrete inputs 0 and 5. -/
theorem claim_C6_witness :
    isZeroMask 0 = 8191 ∧ isZeroMask 5 = 0 := by
  constructor
  · have h := claim_C6_isZeroMask 0 (by norm_num)
    simpa using h
  · have h := claim_C6_isZeroMask 5 (by norm_num)
    simpa using h

/-- C7: for every seed whose length is not exactly 32 bytes, the scheme-level
DeriveKeyPair rejects immediately with the explicit error, for every
expansion collaborator and every fuel — in particular no seed expansion,
resampling or key derivation influences the result. -/
theorem claim_C7_seed_length_check (xof : Xof) (ctrl : CtrlBits) (fuel : Nat)
    (seed : List Nat) (h : seed.length ≠ 32) :
    DeriveKeyPair xof ctrl fuel seed =
      Except.error "seed must be of length EncapsulationSeedSize" := by
  unfold DeriveKeyPair
  rw [if_pos]
  exact h

/-- Witness for C7: the empty seed is rejected. -/
theorem claim_C7_witness :
    DeriveKeyPair xofZero ctrlZero 0 [] =
      Except.error "seed must be of length EncapsulationSeedSize" :=
  claim_C7_seed_length_check xofZero ctrlZero 0 [] (by decide)

/-- C10: for every buffer of length exactly PrivateKeySize,
UnmarshalBinaryPrivateKey succeeds but returns the all-zero private key,
independent of the buffer contents (the decoded bytes are copied into a
discarded local), so unmarshal ∘ marshal cannot reproduce any private key
with a nonzero byte. -/
theorem claim_C10_unmarshal_returns_zero :
    (∀ buf : List Nat, buf.length = PrivateKeySize →
      UnmarshalBinaryPrivateKey buf = some (List.replicate PrivateKeySize 0)) ∧
    (∀ (sk : List Nat) (i : Nat), sk.getD i 0 ≠ 0 →
      UnmarshalBinaryPrivateKey (MarshalBinaryPrivateKey sk) ≠ some sk) := by
  constructor
  · intro buf hlen
    unfold UnmarshalBinaryPrivateKey
    rw [if_neg (by omega)]
  · intro sk i hi
    have hlen : (MarshalBinaryPrivateKey sk).length = PrivateKeySize := by
      unfold MarshalBinaryPrivateKey
      simp
    intro heq
    unfold UnmarshalBinaryPrivateKey at heq
    rw [if_neg (by omega)] at heq
    have hz : List.replicate PrivateKeySize 0 = sk := by
      exact Option.some.inj heq
    have : sk.getD i 0 = 0 := by
      rw [← hz]
      by_cases h : i < PrivateKeySize
      · rw [List.getD_eq_getElem _ _ (by simpa using h)]
        simp
      · rw [List.getD_eq_default]
        simp
        omega
    exact hi this

/-- Witness for C10: a concrete full-length buffer unmarshals to the zero
key, and the marshal/unmarshal round trip loses the concrete key [5]. -/
theorem claim_C10_witness :
    UnmarshalBinaryPrivateKey (List.replicate PrivateKeySize 3) =
      some (List.replicate PrivateKeySize 0) ∧
    UnmarshalBinaryPrivateKey (MarshalBinaryPrivateKey [5]) ≠ some [5] := by
  constructor
  · exact claim_C10_unmarshal_returns_zero.1 (List.replicate PrivateKeySize 3)
      (by simp)
  · exact claim_C10_unmarshal_returns_zero.2 [5] 0 (by decide)

end McEliece348864

namespace McEliece348864

open McEliece

/-! Lemmas about pkGen of the 348864 variant. -/

theorem key_mask_348864 (p i : Nat) (h : i < 4096) :
    (((p <<< 31) ||| i) &&& gfMask) = i := by
  have h4095 : gfMask = 2 ^ 12 - 1 := rfl
  rw [Nat.and_distrib_right, h4095, shiftLeft_and_mask_zero p 31 12 (by norm_num)]
  rw [Nat.and_pow_two_sub_one_eq_mod, Nat.mod_eq_of_lt h, Nat.zero_or]

/-- Inversion of a successful pkGen run: the returned permutation is the
masked sorted key list, and the public key is the serialisation of the
eliminated matrix. -/
theorem pkGen_some_shape (sk perm : List Nat) (pivots : Nat)
    (pi pk : List Nat)
    (h : pkGen sk perm pivots = some (pi, pk)) :
    pi = (uInt64Sort ((List.range (1 <<< gfBits)).map
          (fun i => ((perm.getD i 0) <<< 31) ||| i))).map (fun x => x &&& gfMask) ∧
    ∃ mf, pk = serializePk mf := by
  unfold pkGen at h
  dsimp only at h
  split at h
  · split at h
    · exact absurd h (by simp)
    · next mf hmf =>
      have h2 := Option.some.inj h
      have h3 := congrArg Prod.fst h2
      have h4 := congrArg Prod.snd h2
      exact ⟨h3.symm, mf, h4.symm⟩
  · exact absurd h (by simp)

theorem pkGen_count_348864 (sk perm : List Nat) (pivots : Nat)
    (pi pk : List Nat) (hpk : pkGen sk perm pivots = some (pi, pk)) :
    ∀ v : Nat, pi.count v = if v < 1 <<< gfBits then 1 else 0 := by
  have hsh := (pkGen_some_shape sk perm pivots pi pk hpk).1
  intro v
  rw [hsh]
  exact count_sorted_masked _ gfMask (1 <<< gfBits)
    (fun i hi => key_mask_348864 _ i
      (by simpa using Nat.lt_of_lt_of_le hi (by decide))) v

theorem length_serializePk (m : Mat2) :
    (serializePk m).length = pkNRows * pkRowBytes := by
  unfold serializePk
  rw [List.length_flatMap]
  have hc : (List.range pkNRows).map
      (List.length ∘ fun i => (List.range pkRowBytes).map
        (fun c => m i (pkNRows / 8 + c))) =
      List.replicate (List.range pkNRows).length pkRowBytes := by
    rw [← List.map_const']
    apply List.map_congr_left
    intro a ha
    simp
  rw [hc, List.sum_const_nat, List.length_range]

theorem pkGen_pk_layout_348864 (sk perm : List Nat) (pivots : Nat)
    (pi pk : List Nat) (hpk : pkGen sk perm pivots = some (pi, pk)) :
    pk.length = pkNRows * pkRowBytes ∧
    ∀ r : Nat, pk.getD (r * pkRowBytes + (pkRowBytes - 1)) 0 % 256 <
      2 ^ (pkNCols - 8 * (pkRowBytes - 1)) := by
  obtain ⟨mf, hpk2⟩ := (pkGen_some_shape sk perm pivots pi pk hpk).2
  refine ⟨?_, ?_⟩
  · rw [hpk2]
    exact length_serializePk mf
  · intro r
    have he : pkNCols - 8 * (pkRowBytes - 1) = 8 := by decide
    rw [he]
    exact Nat.mod_lt _ (by norm_num)

end McEliece348864

namespace McEliece

theorem getD_map_range_gen {α : Type} (f : Nat → α) (d : α) (n i : Nat) :
    ((List.range n).map f).getD i d = if i < n then f i else d := by
  by_cases h : i < n
  · rw [if_pos h, List.getD_eq_getElem _ _ (by simpa using h)]
    simp
  · rw [if_neg h, List.getD_eq_default]
    simpa using Nat.le_of_not_lt h

theorem length_flatMap_const {α : Type} (n c : Nat) (F : Nat → List α)
    (h : ∀ t, (F t).length = c) :
    ((List.range n).flatMap F).length = n * c := by
  rw [List.length_flatMap]
  have hc : (List.range n).map (List.length ∘ F) =
      List.replicate (List.range n).length c := by
    rw [← List.map_const']
    apply List.map_congr_left
    intro a ha
    simp [Function.comp, h]
  rw [hc, List.sum_const_nat, List.length_range]

theorem getD_flatMap_chunks (n c : Nat) (F : Nat → List Nat)
    (h : ∀ t, (F t).length = c) (r j : Nat) (hr : r < n) (hj : j < c) :
    ((List.range n).flatMap F).getD (r * c + j) 0 = (F r).getD j 0 := by
  rw [List.flatMap_def]
  rw [getD_flatten_chunks c _
    (by
      intro l hl
      obtain ⟨a, ha, rfl⟩ := List.mem_map.mp hl
      exact h a) r j (by simpa using hr) hj]
  rw [getD_map_range_gen]
  rw [if_pos hr]

end McEliece

namespace McEliece6960119

open McEliece

theorem key_mask_6960119 (x p i : Nat) (h : i < 8192) :
    ((((x <<< gfBits) ||| i) ||| (p <<< 31)) &&& gfMask) = i := by
  have hm : gfMask = 2 ^ 13 - 1 := rfl
  rw [Nat.and_distrib_right, Nat.and_distrib_right, hm,
      shiftLeft_and_mask_zero x gfBits 13 (by decide),
      shiftLeft_and_mask_zero p 31 13 (by norm_num),
      Nat.and_pow_two_sub_one_eq_mod, Nat.mod_eq_of_lt h]
  simp

set_option maxRecDepth 20000 in
/-- Inversion of a successful pkGen run of the 6960119 variant. -/
theorem pkGen_some_shape_6960119 (fft : Fft) (vMul : VecMul) (vInv : VecInv)
    (irr perm : List Nat) (pivots : Nat) (pi pk : List Nat)
    (h : pkGen fft vMul vInv irr perm pivots = some (pi, pk)) :
    pi = (uInt64Sort (sortKeys fft vMul vInv irr perm)).map
        (fun x => x &&& gfMask) ∧
    ∃ matS opsF : Mat2, pk = (List.range pkNRows).flatMap (fun row =>
        rowBytes (fun k => oneRowWord matS opsF row k)) := by
  unfold pkGen at h
  dsimp only at h
  split at h
  · split at h
    · exact absurd h (by simp)
    · next st hst =>
      have h2 := Option.some.inj h
      have h3 := congrArg Prod.fst h2
      have h4 := congrArg Prod.snd h2
      exact ⟨h3.symm, _, _, h4.symm⟩
  · exact absurd h (by simp)

theorem pkGen_count_6960119 (fft : Fft) (vMul : VecMul) (vInv : VecInv)
    (irr perm : List Nat) (pivots : Nat)
    (pi pk : List Nat)
    (hpk : pkGen fft vMul vInv irr perm pivots = some (pi, pk)) :
    ∀ v : Nat, pi.count v = if v < 1 <<< gfBits then 1 else 0 := by
  have hsh := (pkGen_some_shape_6960119 fft vMul vInv irr perm pivots
    pi pk hpk).1
  intro v
  rw [hsh]
  unfold sortKeys
  exact count_sorted_masked _ gfMask (1 <<< gfBits)
    (fun i hi => key_mask_6960119 _ _ i
      (by simpa using Nat.lt_of_lt_of_le hi (by decide))) v

theorem length_rowBytes (w : Nat → Nat) : (rowBytes w).length = pkRowBytes := by
  unfold rowBytes
  dsimp only
  rw [List.length_append,
      length_flatMap_const _ 8 _ (fun t => length_store8 _)]
  rw [List.length_map, List.length_range]
  decide

theorem rowBytes_last_byte (w : Nat → Nat) :
    (rowBytes w).getD (pkRowBytes - 1) 0 % 256 < 32 := by
  unfold rowBytes
  dsimp only
  have hlen1 : ((List.range (nblocksH - 1 - blockIdx)).flatMap (fun t =>
      store8 (((w (blockIdx + t) >>> tail) |||
               (w (blockIdx + t + 1) <<< (64 - tail))) %
        18446744073709551616))).length = 672 := by
    rw [length_flatMap_const _ 8 _ (fun t => length_store8 _)]
    decide
  rw [List.getD_eq_getElem?_getD,
      List.getElem?_append_right (by rw [hlen1]; decide), hlen1]
  have hidx : pkRowBytes - 1 - 672 = 4 := by decide
  rw [hidx, ← List.getD_eq_getElem?_getD, getD_map_range_gen]
  rw [if_pos (by decide), if_pos (by decide)]
  have hmask : (1 <<< (pkNCols % 8)) - 1 = 2 ^ 5 - 1 := by decide
  rw [hmask, Nat.and_pow_two_sub_one_eq_mod]
  have hlt : (storeI (w (nblocksH - 1) >>> tail) (pkRowBytes % 8)).getD 4 0 %
      2 ^ 5 < 32 := Nat.mod_lt _ (by norm_num)
  rw [Nat.mod_eq_of_lt (by omega)]
  omega

theorem pkGen_pk_layout_6960119 (fft : Fft) (vMul : VecMul) (vInv : VecInv)
    (irr perm : List Nat) (pivots : Nat) (pi pk : List Nat)
    (hpk : pkGen fft vMul vInv irr perm pivots = some (pi, pk)) :
    pk.length = pkNRows * pkRowBytes ∧
    ∀ r : Nat, pk.getD (r * pkRowBytes + (pkRowBytes - 1)) 0 % 256 <
      2 ^ (pkNCols - 8 * (pkRowBytes - 1)) := by
  obtain ⟨matS, opsF, hpk2⟩ := (pkGen_some_shape_6960119 fft vMul vInv irr
    perm pivots pi pk hpk).2
  have hexp : pkNCols - 8 * (pkRowBytes - 1) = 5 := by decide
  have hlen : pk.length = pkNRows * pkRowBytes := by
    rw [hpk2]
    exact length_flatMap_const _ _ _ (fun t => length_rowBytes _)
  refine ⟨hlen, ?_⟩
  intro r
  rw [hexp]
  by_cases hr : r < pkNRows
  · rw [hpk2, getD_flatMap_chunks pkNRows pkRowBytes _
      (fun t => length_rowBytes _) r (pkRowBytes - 1) hr (by decide)]
    exact rowBytes_last_byte _
  · have hge : pk.length ≤ r * pkRowBytes + (pkRowBytes - 1) := by
      rw [hlen]
      have h1 : pkNRows * pkRowBytes ≤ r * pkRowBytes :=
        Nat.mul_le_mul_right _ (by omega)
      omega
    rw [List.getD_eq_default _ _ hge]
    norm_num

end McEliece6960119

namespace McEliece348864

open McEliece

/-! Lemmas about the key-pair driver. -/

theorem length_seedRecord (s : List Nat) : (seedRecord s).length = 32 := by
  simp [seedRecord]

theorem length_serializeIrr (irr : List Nat) :
    (serializeIrr irr).length = irrBytes :=
  length_flatMap_const sysT 2 _ (fun t => rfl)

theorem length_ctrlRecord (ctrl : CtrlBits) (pi : List Nat) :
    (ctrlRecord ctrl pi).length = condBytes := by
  simp [ctrlRecord]

theorem length_sRecord (xof : Xof) (s : List Nat) :
    (sRecord xof s).length = sysN / 8 := by
  simp [sRecord]

theorem sysN_div8 : sysN / 8 = 436 := rfl

/-- The assembled private-key write stack reads the same on every index of
the key, independently of the buffer it was built over: the five write
regions cover all of [0, PrivateKeySize). -/
theorem skStack_apply_indep (b1 b2 : Buf) (xof : Xof) (ctrl : CtrlBits)
    (s irr pi : List Nat) (i : Nat) (hi : i < PrivateKeySize) :
    writeList (writeList (writeList (writeList (writeList b1 0
      (seedRecord s)) 40 (serializeIrr irr)) (32 + 8 + irrBytes)
      (ctrlRecord ctrl pi)) sBase (sRecord xof s)) 32 (store8 pivotsInit) i =
    writeList (writeList (writeList (writeList (writeList b2 0
      (seedRecord s)) 40 (serializeIrr irr)) (32 + 8 + irrBytes)
      (ctrlRecord ctrl pi)) sBase (sRecord xof s)) 32 (store8 pivotsInit) i := by
  have hi' : i < 6492 := hi
  simp only [writeList, length_seedRecord, length_serializeIrr,
    length_ctrlRecord, length_sRecord, length_store8, irrBytes_eq,
    condBytes_eq, sBase_eq, sysN_div8]
  split_ifs <;> first | rfl | omega

theorem readList_skStack_indep (b1 b2 : Buf) (xof : Xof) (ctrl : CtrlBits)
    (s irr pi : List Nat) :
    readList (writeList (writeList (writeList (writeList (writeList b1 0
      (seedRecord s)) 40 (serializeIrr irr)) (32 + 8 + irrBytes)
      (ctrlRecord ctrl pi)) sBase (sRecord xof s)) 32 (store8 pivotsInit))
      0 PrivateKeySize =
    readList (writeList (writeList (writeList (writeList (writeList b2 0
      (seedRecord s)) 40 (serializeIrr irr)) (32 + 8 + irrBytes)
      (ctrlRecord ctrl pi)) sBase (sRecord xof s)) 32 (store8 pivotsInit))
      0 PrivateKeySize := by
  unfold readList
  apply List.map_congr_left
  intro i hmem
  have hi : i < PrivateKeySize := List.mem_range.mp hmem
  have h := skStack_apply_indep b1 b2 xof ctrl s irr pi (0 + i)
    (by simpa using hi)
  exact h

/-- Generic shape of the loop body versus the attempt: two nested Option
eliminations whose scrutinees and success payloads agree pointwise either
both succeed with the same result or both fail. -/
theorem nested_elim_cases {γ δ β σ : Type}
    (m : Option γ) (P Q : γ → Option δ) (b0 : β) (B : γ → β)
    (F G : γ → δ → σ)
    (hPQ : ∀ a, P a = Q a) (hFG : ∀ a d, F a d = G a d) :
    (∃ r, Option.elim m (Sum.inl b0)
        (fun a => Option.elim (P a) (Sum.inl (B a))
          (fun d => Sum.inr (F a d))) = Sum.inr r ∧
      Option.elim m none
        (fun a => Option.elim (Q a) none
          (fun d => some (G a d))) = some r) ∨
    (∃ b, Option.elim m (Sum.inl b0)
        (fun a => Option.elim (P a) (Sum.inl (B a))
          (fun d => Sum.inr (F a d))) = Sum.inl b ∧
      Option.elim m none
        (fun a => Option.elim (Q a) none
          (fun d => some (G a d))) = none) := by
  cases m with
  | none => exact Or.inr ⟨b0, rfl, rfl⟩
  | some a =>
    simp only [Option.elim_some]
    rw [hPQ a]
    cases hq : Q a with
    | none => exact Or.inr ⟨B a, rfl, rfl⟩
    | some d =>
      refine Or.inl ⟨G a d, ?_, rfl⟩
      simp only [Option.elim_some]
      rw [hFG a d]

/-- Generic inversion of a successful nested Option elimination. -/
theorem nested_elim_some_inv {γ δ ε : Type} (m : Option γ) (P : γ → Option δ)
    (H : γ → δ → ε) (r : ε)
    (h : Option.elim m none
      (fun a => Option.elim (P a) none (fun d => some (H a d))) = some r) :
    ∃ a d, m = some a ∧ P a = some d ∧ H a d = r := by
  cases m with
  | none =>
    simp only [Option.elim_none] at h
    exact absurd h (by simp)
  | some a =>
    simp only [Option.elim_some] at h
    cases hq : P a with
    | none =>
      rw [hq] at h
      simp only [Option.elim_none] at h
      exact absurd h (by simp)
    | some d =>
      rw [hq] at h
      simp only [Option.elim_some] at h
      exact ⟨a, d, rfl, hq, Option.some.inj h⟩

/-- The success branch's write stack over the carried buffer reads back the
same bytes as the one over the zero buffer: every byte is overwritten. -/
theorem readList_stack_eq_skAssembled (skC : Buf) (xof : Xof)
    (ctrl : CtrlBits) (s irr pi : List Nat) :
    readList (writeList (writeList (writeList (writeList (writeList skC 0
      (seedRecord s)) 40 (serializeIrr irr)) (32 + 8 + irrBytes)
      (ctrlRecord ctrl pi)) sBase (sRecord xof s)) 32 (store8 pivotsInit))
      0 PrivateKeySize = skAssembled xof ctrl s irr pi := by
  unfold skAssembled
  exact readList_skStack_indep skC zeroBuf xof ctrl s irr pi

set_option maxRecDepth 4096 in
/-- One loop body either returns exactly the attempt's result (with the
assembled key independent of the carried buffer) or fails exactly when the
attempt fails. -/
theorem loopStep_cases (xof : Xof) (ctrl : CtrlBits) (skC : Buf)
    (s : List Nat) :
    (∃ r, loopStep xof ctrl skC s = Sum.inr r ∧
      attemptResult xof ctrl s = some r) ∨
    (∃ b, loopStep xof ctrl skC s = Sum.inl b ∧
      attemptResult xof ctrl s = none) := by
  have els : loopStep xof ctrl skC s =
      Option.elim (minimalPolynomial (fOf xof s))
        (Sum.inl (writeList skC 0 (seedRecord s)))
        (fun irr => Option.elim (pkGen (readList (writeList (writeList skC 0
            (seedRecord s)) 40 (serializeIrr irr)) 40 irrBytes)
            (permOf xof s) pivotsInit)
          (Sum.inl (writeList (writeList skC 0 (seedRecord s)) 40
            (serializeIrr irr)))
          (fun pr => Sum.inr (pr.2, readList (writeList (writeList (writeList
            (writeList (writeList skC 0 (seedRecord s)) 40 (serializeIrr irr))
            (32 + 8 + irrBytes) (ctrlRecord ctrl pr.1)) sBase (sRecord xof s))
            32 (store8 pivotsInit)) 0 PrivateKeySize))) := rfl
  have eat : attemptResult xof ctrl s =
      Option.elim (minimalPolynomial (fOf xof s)) none
        (fun irr => Option.elim (pkGen (serializeIrr irr) (permOf xof s)
            pivotsInit) none
          (fun pr => some (pr.2, skAssembled xof ctrl s irr pr.1))) := rfl
  rw [els, eat]
  exact nested_elim_cases
    (minimalPolynomial (fOf xof s))
    (fun irr => pkGen (readList (writeList (writeList skC 0 (seedRecord s))
      40 (serializeIrr irr)) 40 irrBytes) (permOf xof s) pivotsInit)
    (fun irr => pkGen (serializeIrr irr) (permOf xof s) pivotsInit)
    (writeList skC 0 (seedRecord s))
    (fun irr => writeList (writeList skC 0 (seedRecord s)) 40
      (serializeIrr irr))
    (fun irr pr => (pr.2, readList (writeList (writeList (writeList
      (writeList (writeList skC 0 (seedRecord s)) 40 (serializeIrr irr))
      (32 + 8 + irrBytes) (ctrlRecord ctrl pr.1)) sBase (sRecord xof s))
      32 (store8 pivotsInit)) 0 PrivateKeySize))
    (fun irr pr => (pr.2, skAssembled xof ctrl s irr pr.1))
    (fun irr => congrArg (fun x => pkGen x (permOf xof s) pivotsInit)
      (readList_writeList (writeList skC 0 (seedRecord s)) 40 irrBytes
        (serializeIrr irr) (length_serializeIrr irr)))
    (fun irr pr => congrArg (Prod.mk pr.2)
      (readList_stack_eq_skAssembled skC xof ctrl s irr pr.1))

theorem keyGenLoop_zero (xof : Xof) (ctrl : CtrlBits) (b : Buf)
    (s : List Nat) : keyGenLoop xof ctrl 0 b s = none := rfl

theorem keyGenLoop_step (xof : Xof) (ctrl : CtrlBits) (n : Nat) (skC : Buf)
    (s : List Nat) :
    keyGenLoop xof ctrl (n + 1) skC s =
      (loopStep xof ctrl skC s).elim
        (fun skNext => keyGenLoop xof ctrl n skNext (nextSeed xof s))
        (fun r => some r) := rfl

/-- The retry-loop result does not depend on the private-key buffer carried
across iterations: a successful iteration overwrites every byte of the
returned key. -/
theorem keyGenLoop_buf_indep (xof : Xof) (ctrl : CtrlBits) :
    ∀ (fuel : Nat) (s : List Nat) (b1 b2 : Buf),
      keyGenLoop xof ctrl fuel b1 s = keyGenLoop xof ctrl fuel b2 s := by
  intro fuel
  induction fuel with
  | zero => intro s b1 b2; rfl
  | succ n ih =>
    intro s b1 b2
    rw [keyGenLoop_step, keyGenLoop_step]
    rcases loopStep_cases xof ctrl b1 s with ⟨r1, e1, a1⟩ | ⟨bb1, e1, a1⟩ <;>
      rcases loopStep_cases xof ctrl b2 s with ⟨r2, e2, a2⟩ | ⟨bb2, e2, a2⟩
    · have hr : r1 = r2 := Option.some.inj (a1.symm.trans a2)
      rw [e1, e2, hr]
    · rw [a1] at a2
      exact absurd a2 (by simp)
    · rw [a1] at a2
      exact absurd a2.symm (by simp)
    · rw [e1, e2]
      simp only [Sum.elim_inl]
      exact ih (nextSeed xof s) bb1 bb2

/-- One unfolding of the retry loop: an iteration either returns the current
attempt's result or recurses on the updated seed (with the carried buffer
normalised away by `keyGenLoop_buf_indep`). -/
theorem keyGenLoop_succ (xof : Xof) (ctrl : CtrlBits) (fuel : Nat)
    (skC : Buf) (s : List Nat) :
    keyGenLoop xof ctrl (fuel + 1) skC s =
      Option.elim (attemptResult xof ctrl s)
        (keyGenLoop xof ctrl fuel zeroBuf (nextSeed xof s)) some := by
  rw [keyGenLoop_step]
  rcases loopStep_cases xof ctrl skC s with ⟨r, e1, a1⟩ | ⟨b, e1, a1⟩
  · rw [e1, a1]
    rfl
  · rw [e1, a1]
    simp only [Sum.elim_inl, Option.elim_none]
    exact keyGenLoop_buf_indep xof ctrl fuel (nextSeed xof s) b zeroBuf

/-- A successful loop run returns the result of some attempt along the seed
chain. -/
theorem keyGenLoop_some_attempt (xof : Xof) (ctrl : CtrlBits) :
    ∀ (fuel : Nat) (s : List Nat) (b : Buf) (r : List Nat × List Nat),
      keyGenLoop xof ctrl fuel b s = some r →
      ∃ n, attemptResult xof ctrl (iterSeed xof n s) = some r := by
  intro fuel
  induction fuel with
  | zero =>
    intro s b r h
    rw [keyGenLoop_zero] at h
    exact absurd h (by simp)
  | succ n ih =>
    intro s b r h
    rw [keyGenLoop_succ] at h
    cases har : attemptResult xof ctrl s with
    | some r2 =>
      rw [har, Option.elim_some] at h
      have hr : r2 = r := Option.some.inj h
      exact ⟨0, by rw [hr] at har; exact har⟩
    | none =>
      rw [har, Option.elim_none] at h
      obtain ⟨m, hm⟩ := ih (nextSeed xof s) zeroBuf r h
      exact ⟨m + 1, hm⟩

/-- Inversion of a successful attempt: the minimal polynomial succeeded, the
public-key build succeeded, and the private key is the assembled stack. -/
theorem attemptResult_some_inv (xof : Xof) (ctrl : CtrlBits) (s : List Nat)
    (pk sk : List Nat)
    (h : attemptResult xof ctrl s = some (pk, sk)) :
    ∃ irr pi, minimalPolynomial (fOf xof s) = some irr ∧
      pkGen (serializeIrr irr) (permOf xof s) pivotsInit = some (pi, pk) ∧
      sk = skAssembled xof ctrl s irr pi := by
  obtain ⟨irr, pr, hmp, hpk, hH⟩ := nested_elim_some_inv
    (minimalPolynomial (fOf xof s))
    (fun irr => pkGen (serializeIrr irr) (permOf xof s) pivotsInit)
    (fun irr pr => (pr.2, skAssembled xof ctrl s irr pr.1))
    (pk, sk) h
  obtain ⟨pi, pk2⟩ := pr
  have h3 := congrArg Prod.fst hH
  have h4 := congrArg Prod.snd hH
  dsimp only at h3 h4
  rw [h3] at hpk
  exact ⟨irr, pi, hmp, hpk, h4.symm⟩

theorem skAssembled_length (xof : Xof) (ctrl : CtrlBits) (s irr pi : List Nat) :
    (skAssembled xof ctrl s irr pi).length = PrivateKeySize := by
  unfold skAssembled
  exact length_readList _ _ _

theorem skAssembled_region_seed (xof : Xof) (ctrl : CtrlBits)
    (s irr pi : List Nat) :
    subBytes (skAssembled xof ctrl s irr pi) 0 32 = seedRecord s := by
  unfold skAssembled
  rw [subBytes_readList _ 0 32 PrivateKeySize (by decide)]
  rw [readList_writeList_disjoint _ 0 32 32 _ (Or.inl (by decide))]
  rw [readList_writeList_disjoint _ 0 32 sBase _ (Or.inl (by decide))]
  rw [readList_writeList_disjoint _ 0 32 (32 + 8 + irrBytes) _
    (Or.inl (by decide))]
  rw [readList_writeList_disjoint _ 0 32 40 _ (Or.inl (by decide))]
  exact readList_writeList _ 0 32 _ (length_seedRecord s)

theorem skAssembled_region_pivot (xof : Xof) (ctrl : CtrlBits)
    (s irr pi : List Nat) :
    subBytes (skAssembled xof ctrl s irr pi) 32 8 = store8 pivotsInit := by
  unfold skAssembled
  rw [subBytes_readList _ 32 8 PrivateKeySize (by decide)]
  exact readList_writeList _ 32 8 _ (length_store8 pivotsInit)

theorem skAssembled_region_irr (xof : Xof) (ctrl : CtrlBits)
    (s irr pi : List Nat) :
    subBytes (skAssembled xof ctrl s irr pi) 40 irrBytes = serializeIrr irr := by
  unfold skAssembled
  rw [subBytes_readList _ 40 irrBytes PrivateKeySize (by decide)]
  rw [readList_writeList_disjoint _ 40 irrBytes 32 _ (Or.inr (by decide))]
  rw [readList_writeList_disjoint _ 40 irrBytes sBase _ (Or.inl (by decide))]
  rw [readList_writeList_disjoint _ 40 irrBytes (32 + 8 + irrBytes) _
    (Or.inl (by decide))]
  exact readList_writeList _ 40 irrBytes _ (length_serializeIrr irr)

theorem skAssembled_region_ctrl (xof : Xof) (ctrl : CtrlBits)
    (s irr pi : List Nat) :
    subBytes (skAssembled xof ctrl s irr pi) (32 + 8 + irrBytes) condBytes =
      ctrlRecord ctrl pi := by
  unfold skAssembled
  rw [subBytes_readList _ (32 + 8 + irrBytes) condBytes PrivateKeySize
    (by decide)]
  rw [readList_writeList_disjoint _ (32 + 8 + irrBytes) condBytes 32 _
    (Or.inr (by decide))]
  rw [readList_writeList_disjoint _ (32 + 8 + irrBytes) condBytes sBase _
    (Or.inl (by decide))]
  exact readList_writeList _ (32 + 8 + irrBytes) condBytes _
    (length_ctrlRecord ctrl pi)

theorem skAssembled_region_s (xof : Xof) (ctrl : CtrlBits)
    (s irr pi : List Nat) :
    subBytes (skAssembled xof ctrl s irr pi) sBase (sysN / 8) =
      sRecord xof s := by
  unfold skAssembled
  rw [subBytes_readList _ sBase (sysN / 8) PrivateKeySize (by decide)]
  rw [readList_writeList_disjoint _ sBase (sysN / 8) 32 _ (Or.inr (by decide))]
  exact readList_writeList _ sBase (sysN / 8) _ (length_sRecord xof s)

theorem iterSeed_succ_right (xof : Xof) :
    ∀ (n : Nat) (s : List Nat),
      iterSeed xof (n + 1) s = nextSeed xof (iterSeed xof n s) := by
  intro n
  induction n with
  | zero => intro s; rfl
  | succ m ih =>
    intro s
    have h1 : iterSeed xof (m + 1 + 1) s = iterSeed xof (m + 1) (nextSeed xof s) :=
      rfl
    have h2 : iterSeed xof (m + 1) s = iterSeed xof m (nextSeed xof s) := rfl
    rw [h1, ih (nextSeed xof s), h2]

theorem seedAt_shape (xof : Xof) (n : Nat) (e : List Nat) :
    ∃ g : Nat → Nat, seedAt xof n e = 64 :: (List.range 32).map g := by
  cases n with
  | zero => exact ⟨fun i => e.getD i 0, rfl⟩
  | succ m =>
    refine ⟨fun i => (xof rLen (iterSeed xof m (seedInit e))).getD
      (rLen - 32 + i) 0, ?_⟩
    have h : seedAt xof (m + 1) e = nextSeed xof (iterSeed xof m (seedInit e)) :=
      iterSeed_succ_right xof m (seedInit e)
    rw [h]
    rfl

theorem seedInit_seedBodyAt (xof : Xof) (n : Nat) (e : List Nat) :
    seedInit (seedBodyAt xof n e) = seedAt xof n e := by
  obtain ⟨g, hg⟩ := seedAt_shape xof n e
  unfold seedBodyAt
  rw [hg]
  unfold seedInit
  simp only [List.drop_succ_cons, List.drop_zero]
  congr 1

/-- Skipping the first N failing attempts is the same as starting the loop at
the N-th seed. -/
theorem keyGenLoop_skip (xof : Xof) (ctrl : CtrlBits) :
    ∀ (N fuel : Nat) (s : List Nat),
      (∀ i, i < N → attemptResult xof ctrl (iterSeed xof i s) = none) →
      keyGenLoop xof ctrl (N + fuel) zeroBuf s =
        keyGenLoop xof ctrl fuel zeroBuf (iterSeed xof N s) := by
  intro N
  induction N with
  | zero =>
    intro fuel s h
    rw [Nat.zero_add]
    rfl
  | succ n ih =>
    intro fuel s h
    have h0 : attemptResult xof ctrl s = none := h 0 (Nat.succ_pos n)
    have hstep : n + 1 + fuel = (n + fuel) + 1 := by omega
    rw [hstep, keyGenLoop_succ, h0, Option.elim_none]
    exact ih fuel (nextSeed xof s) (fun i hi => h (i + 1) (by omega))

end McEliece348864

namespace McEliece348864

open McEliece

/-- C1: deriveKeyPair is deterministic — its output depends only on the 32
seed bytes it copies out of the entropy argument (the SHAKE256 expansion and
sort collaborators being functions, hence deterministic): two calls whose
first 32 entropy bytes agree return byte-identical (public key, private key)
pairs, for every fuel. -/
theorem claim_C1_determinism (xof : Xof) (ctrl : CtrlBits) (fuel : Nat)
    (e1 e2 : List Nat)
    (h : (List.range 32).map (fun i => e1.getD i 0) =
         (List.range 32).map (fun i => e2.getD i 0)) :
    deriveKeyPair xof ctrl fuel e1 = deriveKeyPair xof ctrl fuel e2 := by
  unfold deriveKeyPair seedInit
  rw [h]

/-- Witness for C1: two concrete entropy buffers with identical first 32
bytes produce identical results. -/
theorem claim_C1_witness :
    deriveKeyPair xofZero ctrlZero 0 (List.replicate 32 0) =
      deriveKeyPair xofZero ctrlZero 0 (List.replicate 32 0 ++ [1]) :=
  claim_C1_determinism xofZero ctrlZero 0 _ _ (by decide)

/-- C3: for every seed on which deriveKeyPair returns, the private key has
exactly the specified layout: bytes [0:32) are the successful attempt's seed
(recorded before the seed update), [32:40) the little-endian 8-byte pivot
mask, [40:40+2t) the irreducible polynomial as t two-byte little-endian
coefficients, [40+2t:40+2t+condBytes) the control-bits encoding of the
permutation, and the final sysN/8 bytes the secret random string copied from
the start of that attempt's expansion buffer. -/
theorem claim_C3_private_key_layout (xof : Xof) (ctrl : CtrlBits)
    (fuel : Nat) (e : List Nat) :
    match deriveKeyPair xof ctrl fuel e with
    | some (pk, sk) =>
      ∃ n irr pi,
        minimalPolynomial (fOf xof (seedAt xof n e)) = some irr ∧
        pkGen (serializeIrr irr) (permOf xof (seedAt xof n e)) pivotsInit =
          some (pi, pk) ∧
        sk.length = PrivateKeySize ∧
        subBytes sk 0 32 = seedRecord (seedAt xof n e) ∧
        subBytes sk 32 8 = store8 pivotsInit ∧
        subBytes sk 40 irrBytes = serializeIrr irr ∧
        subBytes sk (32 + 8 + irrBytes) condBytes = ctrlRecord ctrl pi ∧
        subBytes sk sBase (sysN / 8) = sRecord xof (seedAt xof n e)
    | none => True := by
  cases hd : deriveKeyPair xof ctrl fuel e with
  | none => trivial
  | some r =>
    obtain ⟨pk, sk⟩ := r
    have hd2 : keyGenLoop xof ctrl fuel zeroBuf (seedInit e) = some (pk, sk) :=
      hd
    obtain ⟨n, hat⟩ := keyGenLoop_some_attempt xof ctrl fuel (seedInit e)
      zeroBuf (pk, sk) hd2
    obtain ⟨irr, pi, hmp, hpk2, hsk⟩ := attemptResult_some_inv xof ctrl _
      pk sk hat
    show ∃ n irr pi, _
    refine ⟨n, irr, pi, hmp, hpk2, ?_, ?_, ?_, ?_, ?_, ?_⟩
    · rw [hsk]
      exact skAssembled_length xof ctrl _ irr pi
    · rw [hsk]
      exact skAssembled_region_seed xof ctrl _ irr pi
    · rw [hsk]
      exact skAssembled_region_pivot xof ctrl _ irr pi
    · rw [hsk]
      exact skAssembled_region_irr xof ctrl _ irr pi
    · rw [hsk]
      exact skAssembled_region_ctrl xof ctrl _ irr pi
    · rw [hsk]
      exact skAssembled_region_s xof ctrl _ irr pi

/-- C4: the retry loop is memoryless — if the first N attempts driven by a
seed fail, running with N extra units of fuel from that seed returns exactly
what deriveKeyPair returns when seeded directly with the N-th updated seed:
no state carries over from failed attempts into the returned keys. -/
theorem claim_C4_retry_memoryless (xof : Xof) (ctrl : CtrlBits)
    (N fuel : Nat) (e : List Nat)
    (hfail : ∀ i, i < N → attemptResult xof ctrl (seedAt xof i e) = none) :
    deriveKeyPair xof ctrl (N + fuel) e =
      deriveKeyPair xof ctrl fuel (seedBodyAt xof N e) := by
  unfold deriveKeyPair
  rw [seedInit_seedBodyAt xof N e]
  exact keyGenLoop_skip xof ctrl N fuel (seedInit e) (fun i hi => hfail i hi)

/-- Witness for C4 at N = 0 and concrete collaborators: the empty failing
prefix is discharged vacuously. -/
theorem claim_C4_witness :
    deriveKeyPair xofZero ctrlZero (0 + 0) [] =
      deriveKeyPair xofZero ctrlZero 0 (seedBodyAt xofZero 0 []) :=
  claim_C4_retry_memoryless xofZero ctrlZero 0 0 []
    (fun i hi => absurd hi (Nat.not_lt_zero i))

/-- C9: in the mceliece348864 variant, the 8-byte field at private-key
offset [32:40) always equals the little-endian encoding of the constant
0xFFFFFFFF — pkGen receives pivots by value and never updates it, so the
driver stores its initial constant regardless of the elimination. -/
theorem claim_C9_pivot_mask_constant (xof : Xof) (ctrl : CtrlBits)
    (fuel : Nat) (e : List Nat) :
    match deriveKeyPair xof ctrl fuel e with
    | some (_, sk) =>
        subBytes sk 32 8 = [0xFF, 0xFF, 0xFF, 0xFF, 0, 0, 0, 0]
    | none => True := by
  cases hd : deriveKeyPair xof ctrl fuel e with
  | none => trivial
  | some r =>
    obtain ⟨pk, sk⟩ := r
    have hd2 : keyGenLoop xof ctrl fuel zeroBuf (seedInit e) = some (pk, sk) :=
      hd
    obtain ⟨n, hat⟩ := keyGenLoop_some_attempt xof ctrl fuel (seedInit e)
      zeroBuf (pk, sk) hd2
    obtain ⟨irr, pi, hmp, hpk2, hsk⟩ := attemptResult_some_inv xof ctrl _
      pk sk hat
    show subBytes sk 32 8 = _
    rw [hsk, skAssembled_region_pivot]
    decide

end McEliece348864

/-- C2: the permutation array pi produced by a successful pkGen run is a
bijection on [0, 2^m): every value 0..2^m-1 appears exactly once (count 1 in
range and count 0 outside), in both the byte-oriented 348864 variant and the
bitsliced 6960119 variant. -/
theorem claim_C2_pi_bijection :
    (∀ (sk perm : List Nat) (pivots : Nat),
      match McEliece348864.pkGen sk perm pivots with
      | some (pi, _) => ∀ v : Nat,
          pi.count v = if v < 1 <<< McEliece348864.gfBits then 1 else 0
      | none => True) ∧
    (∀ (fft : McEliece6960119.Fft) (vMul : McEliece6960119.VecMul)
        (vInv : McEliece6960119.VecInv) (irr perm : List Nat) (pivots : Nat),
      match McEliece6960119.pkGen fft vMul vInv irr perm pivots with
      | some (pi, _) => ∀ v : Nat,
          pi.count v = if v < 1 <<< McEliece6960119.gfBits then 1 else 0
      | none => True) := by
  constructor
  · intro sk perm pivots
    cases hpk : McEliece348864.pkGen sk perm pivots with
    | none => trivial
    | some pr =>
      obtain ⟨pi, pk⟩ := pr
      dsimp only
      exact McEliece348864.pkGen_count_348864 sk perm pivots pi pk hpk
  · intro fft vMul vInv irr perm pivots
    cases hpk : McEliece6960119.pkGen fft vMul vInv irr perm pivots with
    | none => trivial
    | some pr =>
      obtain ⟨pi, pk⟩ := pr
      dsimp only
      exact McEliece6960119.pkGen_count_6960119 fft vMul vInv irr perm
        pivots pi pk hpk

/-- C8: every public key returned by pkGen is exactly pkNRows * pkRowBytes
bytes, row-major with byte-packed rows, and in the final byte of every row
all bits beyond pkNCols are zero: the final byte, as a byte value, is below
2 to the number of in-range bits it carries (8 for the 348864 variant, whose
pkNCols is divisible by 8, and pkNCols mod 8 = 5 for the 6960119 variant). -/
theorem claim_C8_public_key_layout :
    (∀ (sk perm : List Nat) (pivots : Nat),
      match McEliece348864.pkGen sk perm pivots with
      | some (_, pk) =>
        pk.length = McEliece348864.pkNRows * McEliece348864.pkRowBytes ∧
        ∀ r : Nat, pk.getD (r * McEliece348864.pkRowBytes +
            (McEliece348864.pkRowBytes - 1)) 0 % 256 <
          2 ^ (McEliece348864.pkNCols - 8 * (McEliece348864.pkRowBytes - 1))
      | none => True) ∧
    (∀ (fft : McEliece6960119.Fft) (vMul : McEliece6960119.VecMul)
        (vInv : McEliece6960119.VecInv) (irr perm : List Nat) (pivots : Nat),
      match McEliece6960119.pkGen fft vMul vInv irr perm pivots with
      | some (_, pk) =>
        pk.length = McEliece6960119.pkNRows * McEliece6960119.pkRowBytes ∧
        ∀ r : Nat, pk.getD (r * McEliece6960119.pkRowBytes +
            (McEliece6960119.pkRowBytes - 1)) 0 % 256 <
          2 ^ (McEliece6960119.pkNCols - 8 * (McEliece6960119.pkRowBytes - 1))
      | none => True) := by
  constructor
  · intro sk perm pivots
    cases hpk : McEliece348864.pkGen sk perm pivots with
    | none => trivial
    | some pr =>
      obtain ⟨pi, pk⟩ := pr
      dsimp only
      exact McEliece348864.pkGen_pk_layout_348864 sk perm pivots pi pk hpk
  · intro fft vMul vInv irr perm pivots
    cases hpk : McEliece6960119.pkGen fft vMul vInv irr perm pivots with
    | none => trivial
    | some pr =>
      obtain ⟨pi, pk⟩ := pr
      dsimp only
      exact McEliece6960119.pkGen_pk_layout_6960119 fft vMul vInv irr perm
        pivots pi pk hpk
